import Mathlib

/-!
Verification of the adversarial hangman engine (Hangman.py).

The Python source is shallowly embedded: strings are Lean Strings
(lists of characters), the guessed-letter set is a list of characters
used only through membership, the partition dictionary (a Python
defaultdict keyed by patterns, in insertion order) is an association
list from pattern to bucket, and the ambient random source
(random.choice over a list) is an explicit natural-number draw used as
an index modulo the list length.  Code that raises an exception is
embedded as an Option-returning function, with none for the raise.
-/

/-- Embedding of mask_word: each letter of the word is kept when it is a
member of the guessed set and replaced by the hyphen placeholder
otherwise. -/
def mask_word (word : String) (guessed : List Char) : String :=
  String.mk (word.data.map (fun letter => if letter ∈ guessed then letter else '-'))

/-- One iteration of the partition loop: add word w to the bucket keyed k
of the association list m, creating the bucket at the end (Python dict
insertion order) when the key is new. -/
def addToBucket : List (String × List String) → String → String → List (String × List String)
  | [], k, w => [(k, [w])]
  | (k', ws) :: rest, k, w =>
    if k = k' then (k', ws ++ [w]) :: rest
    else (k', ws) :: addToBucket rest k w

/-- Embedding of partition: fold over the candidate words, adding each
word to the bucket keyed by its mask. -/
def partition (words : List String) (guessed : List Char) : List (String × List String) :=
  words.foldl (fun m w => addToBucket m (mask_word w guessed) w) []

/-- Dictionary lookup partitions[k] on the association-list embedding. -/
def bucketOf : List (String × List String) → String → List String
  | [], _ => []
  | (k', ws) :: rest, k => if k = k' then ws else bucketOf rest k

/-- Embedding of mask.count for the hyphen placeholder. -/
def countDash (s : String) : Nat := s.data.count '-'

/-- Embedding of max_partition.  max over an empty dict raises in Python,
embedded as none.  list.sort with key mask.count is Python's stable
sort, embedded as the stable insertionSort on the dash count.
random.choice draws a uniform index into the list, embedded as the
explicit draw rand taken modulo the list length. -/
def max_partition (rand : Nat) (partitions : List (String × List String)) : Option String :=
  if partitions.isEmpty then none
  else
    let max_size := (partitions.map (fun e => e.snd.length)).foldl max 0
    let largest_partitions := (partitions.filter (fun e => e.snd.length = max_size)).map Prod.fst
    let sorted := List.insertionSort (fun a b => countDash a ≤ countDash b) largest_partitions
    sorted[rand % sorted.length]?

/-- The per-round session state of play_hangman: candidate words, guessed
letters, remaining guesses, the current hint pattern, and the
presentation flag chosen by the sign of the requested length. -/
structure GameState where
  words : List String
  guessed : List Char
  remaining_guesses : Nat
  hint : String
  show_details : Bool
deriving DecidableEq

/-- The state transition of one accepted guess of the playing loop:
insert the guess, partition the candidates, select the new hint, replace
the candidate set by the selected bucket, and decrement the remaining
guesses exactly when the guess does not occur in the new hint. -/
def playStep (st : GameState) (g : Char) (rand : Nat) : Option GameState :=
  let guessed := st.guessed.insert g
  let partitions := partition st.words guessed
  match max_partition rand partitions with
  | none => none
  | some hint =>
    let words := bucketOf partitions hint
    let remaining := if g ∈ hint.data then st.remaining_guesses else st.remaining_guesses - 1
    some (GameState.mk words guessed remaining hint st.show_details)

/-- Embedding of str.lower, mapping each character to lowercase. -/
def lowerStr (s : String) : String := String.mk (s.data.map Char.toLower)

/-- One pass of the input handling of the playing loop: the raw input is
lowercased; it is rejected (state returned unchanged) unless it is a
single alphabetic character not yet guessed, in which case the accepted
guess is played. -/
def tryGuess (st : GameState) (input : String) (rand : Nat) : Option GameState :=
  match (lowerStr input).data with
  | [c] =>
    if c.isAlpha then
      if c ∈ st.guessed then some st else playStep st c rand
    else some st
  | _ => some st

/-- The acceptance test of the letter prompt: a single alphabetic
character, after lowercasing, that is not already guessed. -/
def acceptedGuess (st : GameState) (input : String) : Bool :=
  match (lowerStr input).data with
  | [c] => c.isAlpha && ! decide (c ∈ st.guessed)
  | _ => false

/-- Embedding of the length-selection step: zero is rejected; the word
list is filtered to words whose length is the absolute value of the
request and deduplicated (Python set comprehension); an empty result is
rejected; otherwise the round state is initialised with five guesses, an
all-placeholder hint, and the detail flag set by the sign. -/
def initRound (word_list : List String) (word_length : Int) : Option GameState :=
  if word_length = 0 then none
  else
    let words := (word_list.filter (fun w => w.length = word_length.natAbs)).dedup
    if words.isEmpty then none
    else some (GameState.mk words [] 5
      (String.mk (List.replicate word_length.natAbs '-')) (decide (word_length < 0)))

/-- The playing loop driven by a list of (input, random draw) pairs: while
guesses remain and the hint has a placeholder, process one input;
afterwards (or when the inputs run out) return the state. -/
def runGuesses : GameState → List (String × Nat) → Option GameState
  | st, [] => some st
  | st, (input, rand) :: rest =>
    if 0 < st.remaining_guesses ∧ '-' ∈ st.hint.data then
      match tryGuess st input rand with
      | none => none
      | some st' => runGuesses st' rest
    else some st

/-- The observable game core: every session field except the presentation
flag. -/
structure CoreState where
  words : List String
  guessed : List Char
  remaining_guesses : Nat
  hint : String
deriving DecidableEq

/-- Projection of a session state to its game core. -/
def coreOf (st : GameState) : CoreState :=
  CoreState.mk st.words st.guessed st.remaining_guesses st.hint

/-- The character data of a masked word is the pointwise mask of the
word's data. -/
lemma mask_word_data (w : String) (g : List Char) :
    (mask_word w g).data = w.data.map (fun c => if c ∈ g then c else '-') := rfl

/-- Claim C5: masking preserves the word's length, and the character at
each position of the output is the word's letter there when that letter
is in the guessed set and the placeholder hyphen otherwise. -/
theorem mask_word_length_and_positions (w : String) (g : List Char) (i : Nat) (c : Char)
    (h : w.data[i]? = some c) :
    (mask_word w g).length = w.length ∧
    (mask_word w g).data[i]? = some (if c ∈ g then c else '-') := by
  constructor
  · show (w.data.map _).length = w.data.length
    exact List.length_map _ _
  · rw [mask_word_data, List.getElem?_map, h]
    rfl

/-- Witness for claim C5 at the word "ab" with guessed set containing a,
position 0. -/
theorem mask_word_length_and_positions_witness :
    ("ab" : String).data[0]? = some 'a' ∧
    ((mask_word "ab" ['a']).length = ("ab" : String).length ∧
     (mask_word "ab" ['a']).data[0]? = some (if 'a' ∈ ['a'] then 'a' else '-')) :=
  ⟨by decide, mask_word_length_and_positions "ab" ['a'] 0 'a' (by decide)⟩

/-- Counterexample for claim C6: mask_word compares characters exactly,
so masking the word "A" with lowercase a guessed hides the letter, while
masking the lowercased inputs reveals it. -/
theorem mask_word_not_case_insensitive :
    mask_word "A" ['a'] ≠ mask_word (lowerStr "A") (List.map Char.toLower ['a']) := by
  decide

/-- Claim C6 as amended: when the word and the guessed set are already
lowercase — which the program guarantees by lowercasing words at load
and inputs at the prompt — masking agrees with masking the lowercased
inputs. -/
theorem mask_word_lower_agreement (w : String) (g : List Char)
    (hw : ∀ c ∈ w.data, c.toLower = c) (hg : ∀ c ∈ g, c.toLower = c) :
    mask_word w g = mask_word (lowerStr w) (List.map Char.toLower g) := by
  obtain ⟨d⟩ := w
  have h1 : lowerStr (String.mk d) = String.mk d := by
    show String.mk (d.map Char.toLower) = String.mk d
    exact congrArg String.mk ((List.map_congr_left hw).trans (List.map_id d))
  have h2 : List.map Char.toLower g = g :=
    (List.map_congr_left hg).trans (List.map_id g)
  rw [h1, h2]

/-- Witness for the amended claim C6 at the lowercase word "ab" and
guessed set containing a. -/
theorem mask_word_lower_agreement_witness :
    (∀ c ∈ ("ab" : String).data, c.toLower = c) ∧ (∀ c ∈ ['a'], c.toLower = c) ∧
    mask_word "ab" ['a'] = mask_word (lowerStr "ab") (List.map Char.toLower ['a']) :=
  ⟨by decide, by decide, mask_word_lower_agreement "ab" ['a'] (by decide) (by decide)⟩

/-- Claim C7: the selector fails on an empty partition map (the max of an
empty sequence raises, embedded as none), for every random draw; no
pattern is fabricated. -/
theorem max_partition_empty_fails (rand : Nat) :
    max_partition rand [] = none := rfl

/-- Claim C1 evaluated at its failing input: with buckets a-: ab, ac and
--: xy, zw (both of maximal size two), the code invokes the random draw
over both max-size patterns; draw 0 returns the pattern a- that reveals
more letters, draw 1 returns the pattern -- with fewer reveals, so the
reveal-count tie-break is not applied deterministically. -/
theorem max_partition_ignores_reveal_tiebreak :
    max_partition 0 (partition ["ab", "ac", "xy", "zw"] ['a']) = some "a-" ∧
    max_partition 1 (partition ["ab", "ac", "xy", "zw"] ['a']) = some "--" :=
  ⟨by decide, by decide⟩

/-- Claim C4: on an accepted guess of the playing loop, the remaining
guess count drops by exactly one precisely when the guess does not occur
in the newly selected pattern, and on a hit (the guess occurs in the new
pattern) the remaining guess count is unchanged. -/
theorem miss_iff_not_in_new_pattern (st : GameState) (g : Char) (rand : Nat) (st' : GameState)
    (h0 : 0 < st.remaining_guesses) (h : playStep st g rand = some st') :
    (st'.remaining_guesses + 1 = st.remaining_guesses ↔ g ∉ st'.hint.data) ∧
    (g ∈ st'.hint.data → st'.remaining_guesses = st.remaining_guesses) := by
  simp only [playStep] at h
  cases hm : max_partition rand (partition st.words (st.guessed.insert g)) with
  | none => rw [hm] at h; simp at h
  | some hint =>
    rw [hm] at h
    simp only [Option.some.injEq] at h
    subst h
    show ((if g ∈ hint.data then st.remaining_guesses else st.remaining_guesses - 1) + 1 =
        st.remaining_guesses ↔ g ∉ hint.data) ∧
      (g ∈ hint.data →
        (if g ∈ hint.data then st.remaining_guesses else st.remaining_guesses - 1) =
          st.remaining_guesses)
    by_cases hg : g ∈ hint.data
    · refine ⟨?_, fun _ => if_pos hg⟩
      rw [if_pos hg]
      exact iff_of_false (by omega) (fun hn => hn hg)
    · refine ⟨?_, fun hcon => absurd hcon hg⟩
      rw [if_neg hg]
      exact iff_of_true (by omega) hg

/-- Witness for claim C4: a concrete accepted guess a from candidates ab
and cd with five remaining guesses. -/
theorem miss_iff_not_in_new_pattern_witness :
    0 < (GameState.mk ["ab", "cd"] [] 5 "--" false).remaining_guesses ∧
    playStep (GameState.mk ["ab", "cd"] [] 5 "--" false) 'a' 0 =
      some (GameState.mk ["ab"] ['a'] 5 "a-" false) ∧
    (((GameState.mk ["ab"] ['a'] 5 "a-" false).remaining_guesses + 1 =
        (GameState.mk ["ab", "cd"] [] 5 "--" false).remaining_guesses ↔
      'a' ∉ (GameState.mk ["ab"] ['a'] 5 "a-" false).hint.data) ∧
     ('a' ∈ (GameState.mk ["ab"] ['a'] 5 "a-" false).hint.data →
      (GameState.mk ["ab"] ['a'] 5 "a-" false).remaining_guesses =
        (GameState.mk ["ab", "cd"] [] 5 "--" false).remaining_guesses)) :=
  ⟨by decide, by decide,
    miss_iff_not_in_new_pattern (GameState.mk ["ab", "cd"] [] 5 "--" false) 'a' 0
      (GameState.mk ["ab"] ['a'] 5 "a-" false) (by decide) (by decide)⟩

/-- Claim C8: a rejected input at the letter prompt — not a single
alphabetic character after lowercasing, or a letter already guessed —
returns the session state unchanged. -/
theorem rejected_guess_leaves_state (st : GameState) (input : String) (rand : Nat)
    (h : acceptedGuess st input = false) :
    tryGuess st input rand = some st := by
  rcases hl : (lowerStr input).data with _ | ⟨c, _ | ⟨d, t⟩⟩
  · simp [tryGuess, hl]
  · simp only [acceptedGuess, hl] at h
    simp only [tryGuess, hl]
    by_cases ha : c.isAlpha
    · simp only [ha, Bool.true_and, Bool.not_eq_false', decide_eq_true_eq] at h
      simp [ha, h]
    · simp [ha]
  · simp [tryGuess, hl]

/-- Witness for claim C8: the non-alphabetic input 1 is rejected and the
state is returned unchanged. -/
theorem rejected_guess_leaves_state_witness :
    acceptedGuess (GameState.mk ["ab", "cd"] [] 5 "--" false) "1" = false ∧
    tryGuess (GameState.mk ["ab", "cd"] [] 5 "--" false) "1" 7 =
      some (GameState.mk ["ab", "cd"] [] 5 "--" false) :=
  ⟨by decide,
    rejected_guess_leaves_state (GameState.mk ["ab", "cd"] [] 5 "--" false) "1" 7 (by decide)⟩

/-- Adding a word to a bucket leaves the key sequence unchanged when the
key exists and otherwise appends the new key at the end. -/
lemma addToBucket_keys (m : List (String × List String)) (k w : String) :
    (addToBucket m k w).map Prod.fst =
      if k ∈ m.map Prod.fst then m.map Prod.fst else m.map Prod.fst ++ [k] := by
  induction m with
  | nil => simp [addToBucket]
  | cons e rest ih =>
    obtain ⟨k', ws⟩ := e
    by_cases hk : k = k'
    · subst hk
      simp [addToBucket]
    · simp only [addToBucket, if_neg hk, List.map_cons, ih]
      by_cases hmem : k ∈ rest.map Prod.fst
      · simp [List.mem_cons, hk, hmem]
      · simp [List.mem_cons, hk, hmem]

/-- Adding a word to a bucket preserves distinctness of the keys. -/
lemma addToBucket_keys_nodup (m : List (String × List String)) (k w : String)
    (h : (m.map Prod.fst).Nodup) : ((addToBucket m k w).map Prod.fst).Nodup := by
  rw [addToBucket_keys]
  by_cases hmem : k ∈ m.map Prod.fst
  · simpa [hmem] using h
  · simp only [hmem, if_false]
    simp [List.nodup_append, h, hmem]

/-- Adding a word whose mask is the bucket key preserves the consistency
invariant: every bucket member masks to the bucket key. -/
lemma addToBucket_consistent (f : String → String) (k w : String) (hw : f w = k) :
    ∀ (m : List (String × List String)),
      (∀ e ∈ m, ∀ x ∈ e.snd, f x = e.fst) →
      ∀ e ∈ addToBucket m k w, ∀ x ∈ e.snd, f x = e.fst := by
  intro m
  induction m with
  | nil =>
    intro _ e he x hx
    simp only [addToBucket, List.mem_singleton] at he
    subst he
    simp only [List.mem_singleton] at hx
    subst hx
    exact hw
  | cons e0 rest ih =>
    obtain ⟨k', ws⟩ := e0
    intro hm e he x hx
    by_cases hk : k = k'
    · subst hk
      simp only [addToBucket, if_pos rfl] at he
      rcases List.mem_cons.mp he with he | he
      · subst he
        simp only at hx
        rcases List.mem_append.mp hx with hx | hx
        · exact hm (k, ws) (List.mem_cons_self _ _) x hx
        · simp only [List.mem_singleton] at hx
          subst hx
          exact hw
      · exact hm e (List.mem_cons_of_mem _ he) x hx
    · simp only [addToBucket, if_neg hk] at he
      rcases List.mem_cons.mp he with he | he
      · subst he
        exact hm (k', ws) (List.mem_cons_self _ _) x hx
      · exact ih (fun e' he' => hm e' (List.mem_cons_of_mem _ he')) e he x hx

/-- Adding a word to a bucket preserves non-emptiness of every bucket. -/
lemma addToBucket_nonempty (k w : String) :
    ∀ (m : List (String × List String)), (∀ e ∈ m, e.snd ≠ []) →
      ∀ e ∈ addToBucket m k w, e.snd ≠ [] := by
  intro m
  induction m with
  | nil =>
    intro _ e he
    simp only [addToBucket, List.mem_singleton] at he
    subst he
    simp
  | cons e0 rest ih =>
    obtain ⟨k', ws⟩ := e0
    intro hm e he
    by_cases hk : k = k'
    · subst hk
      simp only [addToBucket, if_pos rfl] at he
      rcases List.mem_cons.mp he with he | he
      · subst he
        simp
      · exact hm e (List.mem_cons_of_mem _ he)
    · simp only [addToBucket, if_neg hk] at he
      rcases List.mem_cons.mp he with he | he
      · subst he
        exact hm (k', ws) (List.mem_cons_self _ _)
      · exact ih (fun e' he' => hm e' (List.mem_cons_of_mem _ he')) e he

/-- Adding a word to a bucket adds exactly that word to the multiset of
all bucket contents. -/
lemma addToBucket_flatten_perm (k w : String) :
    ∀ (m : List (String × List String)),
      List.Perm (((addToBucket m k w).map Prod.snd).flatten)
        ((m.map Prod.snd).flatten ++ [w]) := by
  intro m
  induction m with
  | nil => simp [addToBucket]
  | cons e0 rest ih =>
    obtain ⟨k', ws⟩ := e0
    by_cases hk : k = k'
    · subst hk
      have hred : addToBucket ((k, ws) :: rest) k w = (k, ws ++ [w]) :: rest := by
        simp [addToBucket]
      rw [hred]
      simp only [List.map_cons, List.flatten_cons]
      rw [List.append_assoc, List.append_assoc]
      exact List.Perm.append_left ws List.perm_append_comm
    · have hred : addToBucket ((k', ws) :: rest) k w = (k', ws) :: addToBucket rest k w := by
        simp [addToBucket, hk]
      rw [hred]
      simp only [List.map_cons, List.flatten_cons]
      rw [List.append_assoc]
      exact List.Perm.append_left ws ih

/-- The partition fold preserves distinctness of the keys. -/
lemma partition_fold_keys_nodup (guessed : List Char) :
    ∀ (words : List String) (m : List (String × List String)),
      (m.map Prod.fst).Nodup →
      ((words.foldl (fun m w => addToBucket m (mask_word w guessed) w) m).map Prod.fst).Nodup := by
  intro words
  induction words with
  | nil => intro m hm; simpa using hm
  | cons w ws ih =>
    intro m hm
    simp only [List.foldl_cons]
    exact ih _ (addToBucket_keys_nodup m (mask_word w guessed) w hm)

/-- The keys of a partition map are pairwise distinct. -/
lemma partition_keys_nodup (words : List String) (guessed : List Char) :
    ((partition words guessed).map Prod.fst).Nodup :=
  partition_fold_keys_nodup guessed words [] (by simp)

/-- The partition fold preserves the consistency invariant. -/
lemma partition_fold_consistent (guessed : List Char) :
    ∀ (words : List String) (m : List (String × List String)),
      (∀ e ∈ m, ∀ x ∈ e.snd, mask_word x guessed = e.fst) →
      ∀ e ∈ words.foldl (fun m w => addToBucket m (mask_word w guessed) w) m,
        ∀ x ∈ e.snd, mask_word x guessed = e.fst := by
  intro words
  induction words with
  | nil => intro m hm; simpa using hm
  | cons w ws ih =>
    intro m hm
    simp only [List.foldl_cons]
    exact ih _ (addToBucket_consistent (fun x => mask_word x guessed) _ w rfl m hm)

/-- Every word of a bucket masks to the bucket's key. -/
lemma partition_consistent (words : List String) (guessed : List Char) :
    ∀ e ∈ partition words guessed, ∀ x ∈ e.snd, mask_word x guessed = e.fst :=
  partition_fold_consistent guessed words [] (by simp)

/-- The partition fold preserves non-emptiness of every bucket. -/
lemma partition_fold_nonempty (guessed : List Char) :
    ∀ (words : List String) (m : List (String × List String)),
      (∀ e ∈ m, e.snd ≠ []) →
      ∀ e ∈ words.foldl (fun m w => addToBucket m (mask_word w guessed) w) m, e.snd ≠ [] := by
  intro words
  induction words with
  | nil => intro m hm; simpa using hm
  | cons w ws ih =>
    intro m hm
    simp only [List.foldl_cons]
    exact ih _ (addToBucket_nonempty (mask_word w guessed) w m hm)

/-- Every bucket of a partition map is non-empty. -/
lemma partition_buckets_nonempty (words : List String) (guessed : List Char) :
    ∀ e ∈ partition words guessed, e.snd ≠ [] :=
  partition_fold_nonempty guessed words [] (by simp)

/-- The partition fold appends the processed words to the multiset of all
bucket contents. -/
lemma partition_fold_flatten_perm (guessed : List Char) :
    ∀ (words : List String) (m : List (String × List String)),
      List.Perm
        (((words.foldl (fun m w => addToBucket m (mask_word w guessed) w) m).map
          Prod.snd).flatten)
        ((m.map Prod.snd).flatten ++ words) := by
  intro words
  induction words with
  | nil => intro m; simp
  | cons w ws ih =>
    intro m
    simp only [List.foldl_cons]
    refine (ih (addToBucket m (mask_word w guessed) w)).trans ?_
    refine ((addToBucket_flatten_perm (mask_word w guessed) w m).append_right ws).trans ?_
    rw [List.append_assoc, List.singleton_append]

/-- The bucket contents of a partition map are, as a multiset, exactly
the input words: nothing is dropped or duplicated. -/
lemma partition_flatten_perm (words : List String) (guessed : List Char) :
    List.Perm (((partition words guessed).map Prod.snd).flatten) words := by
  simpa using partition_fold_flatten_perm guessed words []

/-- In an association list with distinct keys in which every bucket
member maps to its key, the buckets are pairwise disjoint. -/
lemma buckets_disjoint (f : String → String) :
    ∀ (m : List (String × List String)),
      (m.map Prod.fst).Nodup →
      (∀ e ∈ m, ∀ x ∈ e.snd, f x = e.fst) →
      (m.map Prod.snd).Pairwise List.Disjoint := by
  intro m
  induction m with
  | nil => intro _ _; simp
  | cons e0 rest ih =>
    obtain ⟨k, ws⟩ := e0
    intro hnd hcons
    simp only [List.map_cons, List.nodup_cons] at hnd
    simp only [List.map_cons, List.pairwise_cons]
    constructor
    · intro vs hvs x hxws hxvs
      obtain ⟨e, he, hev⟩ := List.mem_map.mp hvs
      have h1 : f x = k := hcons (k, ws) (List.mem_cons_self _ _) x hxws
      have h2 : f x = e.fst := by
        refine hcons e (List.mem_cons_of_mem _ he) x ?_
        rw [hev]
        exact hxvs
      have hk : k ≠ e.fst := by
        intro hkk
        exact hnd.1 (hkk ▸ List.mem_map.mpr ⟨e, he, rfl⟩)
      exact hk (h1.symm.trans h2)
    · exact ih hnd.2 (fun e' he' => hcons e' (List.mem_cons_of_mem _ he'))

/-- Claim C2: the buckets of a partition are pairwise disjoint, their
contents together are exactly the input candidate list (no word dropped
or duplicated), every word sits in the bucket keyed by its own mask, and
partitioning an empty candidate list yields an empty map. -/
theorem partition_invariants (C : List String) (g : List Char) :
    ((partition C g).map Prod.snd).Pairwise List.Disjoint ∧
    List.Perm (((partition C g).map Prod.snd).flatten) C ∧
    (∀ e ∈ partition C g, ∀ w ∈ e.snd, mask_word w g = e.fst) ∧
    partition [] g = [] :=
  ⟨buckets_disjoint _ _ (partition_keys_nodup C g) (partition_consistent C g),
   partition_flatten_perm C g,
   partition_consistent C g, rfl⟩

/-- A left fold of max either returns its initial value or a member of
the folded list. -/
lemma foldl_max_mem : ∀ (l : List Nat) (a : Nat), l.foldl max a = a ∨ l.foldl max a ∈ l := by
  intro l
  induction l with
  | nil => intro a; left; rfl
  | cons x xs ih =>
    intro a
    simp only [List.foldl_cons]
    rcases ih (max a x) with h | h
    · rw [h]
      rcases max_choice a x with h2 | h2
      · left; exact h2
      · right; rw [h2]; exact List.mem_cons_self _ _
    · right; exact List.mem_cons_of_mem _ h

/-- In a non-empty partition map some bucket attains the maximal size
computed by the selector. -/
lemma exists_max_size_entry (partitions : List (String × List String)) (h : partitions ≠ []) :
    ∃ e ∈ partitions,
      e.snd.length = (partitions.map (fun e => e.snd.length)).foldl max 0 := by
  obtain ⟨e0, rest, rfl⟩ := List.exists_cons_of_ne_nil h
  simp only [List.map_cons, List.foldl_cons, Nat.zero_max]
  rcases foldl_max_mem (rest.map (fun e => e.snd.length)) e0.snd.length with hmax | hmax
  · exact ⟨e0, List.mem_cons_self _ _, hmax.symm⟩
  · obtain ⟨e, he, hev⟩ := List.mem_map.mp hmax
    exact ⟨e, List.mem_cons_of_mem _ he, hev⟩

/-- Dictionary lookup of a present key returns its bucket when the keys
are distinct. -/
lemma bucketOf_mem :
    ∀ (m : List (String × List String)), (m.map Prod.fst).Nodup →
      ∀ (p : String) (ws : List String), (p, ws) ∈ m → bucketOf m p = ws := by
  intro m
  induction m with
  | nil => intro _ p ws he; simp at he
  | cons e0 rest ih =>
    intro hnd p ws he
    obtain ⟨k, vs⟩ := e0
    simp only [List.map_cons, List.nodup_cons] at hnd
    rcases List.mem_cons.mp he with he | he
    · rw [Prod.mk.injEq] at he
      obtain ⟨rfl, rfl⟩ := he
      simp [bucketOf]
    · have hne : p ≠ k := by
        intro hpk
        refine hnd.1 (hpk ▸ List.mem_map.mpr ⟨(p, ws), he, rfl⟩)
      simp only [bucketOf, if_neg hne]
      exact ih hnd.2 p ws he

/-- On a non-empty partition map the selector succeeds and returns a key
of the map whose bucket has the maximal size. -/
lemma max_partition_spec (partitions : List (String × List String)) (rand : Nat)
    (h : partitions ≠ []) :
    ∃ p ws, max_partition rand partitions = some p ∧ (p, ws) ∈ partitions ∧
      ws.length = (partitions.map (fun e => e.snd.length)).foldl max 0 := by
  have hcond : ¬ partitions.isEmpty = true := by
    simp [List.isEmpty_iff, h]
  unfold max_partition
  rw [if_neg hcond]
  show ∃ p ws,
    (List.insertionSort (fun a b => countDash a ≤ countDash b)
      ((partitions.filter (fun e =>
        e.snd.length = (partitions.map (fun e => e.snd.length)).foldl max 0)).map
          Prod.fst))[rand %
      (List.insertionSort (fun a b => countDash a ≤ countDash b)
        ((partitions.filter (fun e =>
          e.snd.length = (partitions.map (fun e => e.snd.length)).foldl max 0)).map
            Prod.fst)).length]? = some p ∧
    (p, ws) ∈ partitions ∧
    ws.length = (partitions.map (fun e => e.snd.length)).foldl max 0
  obtain ⟨e, hein, helen⟩ := exists_max_size_entry partitions h
  have hefilter : e ∈ partitions.filter (fun e =>
      e.snd.length = (partitions.map (fun e => e.snd.length)).foldl max 0) :=
    List.mem_filter.mpr ⟨hein, by simp [helen]⟩
  have hL : e.fst ∈ (partitions.filter (fun e =>
      e.snd.length = (partitions.map (fun e => e.snd.length)).foldl max 0)).map Prod.fst :=
    List.mem_map.mpr ⟨e, hefilter, rfl⟩
  have hperm := List.perm_insertionSort (fun a b => countDash a ≤ countDash b)
    ((partitions.filter (fun e =>
      e.snd.length = (partitions.map (fun e => e.snd.length)).foldl max 0)).map Prod.fst)
  have hSlen : 0 < (List.insertionSort (fun a b => countDash a ≤ countDash b)
      ((partitions.filter (fun e =>
        e.snd.length = (partitions.map (fun e => e.snd.length)).foldl max 0)).map
          Prod.fst)).length := by
    rw [hperm.length_eq]
    exact List.length_pos.mpr (List.ne_nil_of_mem hL)
  cases hget : (List.insertionSort (fun a b => countDash a ≤ countDash b)
      ((partitions.filter (fun e =>
        e.snd.length = (partitions.map (fun e => e.snd.length)).foldl max 0)).map
          Prod.fst))[rand %
      (List.insertionSort (fun a b => countDash a ≤ countDash b)
        ((partitions.filter (fun e =>
          e.snd.length = (partitions.map (fun e => e.snd.length)).foldl max 0)).map
            Prod.fst)).length]? with
  | none =>
    exfalso
    rw [List.getElem?_eq_none_iff] at hget
    have := Nat.mod_lt rand hSlen
    omega
  | some p =>
    have hpS := List.getElem?_mem hget
    have hpL := hperm.mem_iff.mp hpS
    obtain ⟨e', he'filter, he'fst⟩ := List.mem_map.mp hpL
    obtain ⟨he'in, he'len⟩ := List.mem_filter.mp he'filter
    obtain ⟨q, ws⟩ := e'
    refine ⟨p, ws, rfl, ?_, ?_⟩
    · simp only at he'fst
      rw [← he'fst]
      exact he'in
    · simpa using he'len

/-- Partitioning a non-empty candidate list yields a non-empty map. -/
lemma partition_ne_nil (words : List String) (guessed : List Char) (h : words ≠ []) :
    partition words guessed ≠ [] := by
  intro h0
  apply h
  have hperm := partition_flatten_perm words guessed
  rw [h0] at hperm
  simpa using hperm.symm.eq_nil

/-- An accepted play step never empties the candidate set. -/
lemma playStep_words_ne_nil (st : GameState) (g : Char) (rand : Nat) (st' : GameState)
    (h : st.words ≠ []) (hstep : playStep st g rand = some st') : st'.words ≠ [] := by
  simp only [playStep] at hstep
  obtain ⟨p, ws, hp, hmem, _⟩ :=
    max_partition_spec (partition st.words (st.guessed.insert g)) rand
      (partition_ne_nil _ _ h)
  rw [hp] at hstep
  simp only [Option.some.injEq] at hstep
  rw [← hstep]
  show bucketOf (partition st.words (st.guessed.insert g)) p ≠ []
  rw [bucketOf_mem _ (partition_keys_nodup _ _) p ws hmem]
  exact partition_buckets_nonempty _ _ (p, ws) hmem

/-- Claim C3: on a non-empty candidate set the selector returns a key
present in the partition map with a non-empty bucket, and consequently
the candidate set stays non-empty after every guess processed by the
playing loop. -/
theorem select_within_partition (words : List String) (guessed : List Char) (rand : Nat)
    (h : words ≠ []) :
    (∃ p ws, max_partition rand (partition words guessed) = some p ∧
      (p, ws) ∈ partition words guessed ∧ ws ≠ []) ∧
    ∀ (remaining : Nat) (hint : String) (flag : Bool) (input : String) (st' : GameState),
      tryGuess (GameState.mk words guessed remaining hint flag) input rand = some st' →
      st'.words ≠ [] := by
  constructor
  · obtain ⟨p, ws, hp, hmem, _⟩ :=
      max_partition_spec (partition words guessed) rand (partition_ne_nil words guessed h)
    exact ⟨p, ws, hp, hmem, partition_buckets_nonempty _ _ (p, ws) hmem⟩
  · intro remaining hint flag input st' htry
    rcases hl : (lowerStr input).data with _ | ⟨c, _ | ⟨d, t⟩⟩
    · simp only [tryGuess, hl, Option.some.injEq] at htry
      rw [← htry]
      exact h
    · simp only [tryGuess, hl] at htry
      by_cases ha : c.isAlpha
      · rw [if_pos ha] at htry
        by_cases hc : c ∈ guessed
        · rw [if_pos hc] at htry
          simp only [Option.some.injEq] at htry
          rw [← htry]
          exact h
        · rw [if_neg hc] at htry
          exact playStep_words_ne_nil _ c rand st' h htry
      · rw [if_neg ha] at htry
        simp only [Option.some.injEq] at htry
        rw [← htry]
        exact h
    · simp only [tryGuess, hl, Option.some.injEq] at htry
      rw [← htry]
      exact h

/-- Witness for claim C3 at the single-word candidate list containing ab,
no guesses yet, and draw 0. -/
theorem select_within_partition_witness :
    (["ab"] : List String) ≠ [] ∧
    ((∃ p ws, max_partition 0 (partition ["ab"] []) = some p ∧
        (p, ws) ∈ partition ["ab"] [] ∧ ws ≠ []) ∧
      ∀ (remaining : Nat) (hint : String) (flag : Bool) (input : String) (st' : GameState),
        tryGuess (GameState.mk ["ab"] [] remaining hint flag) input 0 = some st' →
        st'.words ≠ []) :=
  ⟨by decide, select_within_partition ["ab"] [] 0 (by decide)⟩

/-- Masking with an enlarged guessed set never increases the number of
placeholder hyphens. -/
lemma countDash_mask_mono :
    ∀ (w : List Char) (gs gs' : List Char), (∀ c ∈ gs, c ∈ gs') →
      (w.map (fun c => if c ∈ gs' then c else '-')).count '-' ≤
      (w.map (fun c => if c ∈ gs then c else '-')).count '-' := by
  intro w
  induction w with
  | nil => intro gs gs' _; simp
  | cons c rest ih =>
    intro gs gs' hsub
    have htail := ih gs gs' hsub
    simp only [List.map_cons, List.count_cons, beq_iff_eq]
    by_cases hgs : c ∈ gs
    · have hgs' : c ∈ gs' := hsub c hgs
      rw [if_pos hgs, if_pos hgs']
      omega
    · rw [if_neg hgs]
      by_cases hgs' : c ∈ gs'
      · rw [if_pos hgs']
        by_cases hc : c = '-'
        · rw [if_pos hc, if_pos rfl]
          omega
        · rw [if_neg hc, if_pos rfl]
          omega
      · rw [if_neg hgs']
        omega

/-- Masking with an enlarged guessed set strictly decreases the number of
placeholder hyphens when a newly guessed non-hyphen letter appears in the
new mask: its position was hidden before and is revealed now. -/
lemma countDash_mask_strict :
    ∀ (w : List Char) (gs gs' : List Char), (∀ c ∈ gs, c ∈ gs') →
      ∀ (g : Char), g ∉ gs → g ≠ '-' →
      g ∈ w.map (fun c => if c ∈ gs' then c else '-') →
      (w.map (fun c => if c ∈ gs' then c else '-')).count '-' <
      (w.map (fun c => if c ∈ gs then c else '-')).count '-' := by
  intro w
  induction w with
  | nil => intro gs gs' _ g _ _ hmem; simp at hmem
  | cons c rest ih =>
    intro gs gs' hsub g hgnotin hgdash hmem
    simp only [List.map_cons] at hmem
    simp only [List.map_cons, List.count_cons, beq_iff_eq]
    rcases List.mem_cons.mp hmem with hhead | htail
    · by_cases hgs' : c ∈ gs'
      · rw [if_pos hgs'] at hhead
        have hcg : c = g := hhead.symm
        subst hcg
        have htailmono := countDash_mask_mono rest gs gs' hsub
        rw [if_pos hgs', if_neg hgnotin]
        rw [if_neg hgdash, if_pos rfl]
        omega
      · rw [if_neg hgs'] at hhead
        exact absurd hhead hgdash
    · have hstrict := ih gs gs' hsub g hgnotin hgdash htail
      by_cases hgs : c ∈ gs
      · have hgs' : c ∈ gs' := hsub c hgs
        rw [if_pos hgs, if_pos hgs']
        omega
      · rw [if_neg hgs]
        by_cases hgs' : c ∈ gs'
        · rw [if_pos hgs']
          by_cases hc : c = '-'
          · rw [if_pos hc, if_pos rfl]
            omega
          · rw [if_neg hc, if_pos rfl]
            omega
        · rw [if_neg hgs']
          omega

/-- Claim C10: each accepted guess of the playing loop strictly decreases
the termination measure remaining guesses plus the number of placeholder
positions of the hint: a hit reveals at least one previously hidden
position, a miss decrements the remaining guesses while the hint hides no
more positions than before. -/
theorem accepted_guess_decreases_measure (st : GameState) (g : Char) (rand : Nat)
    (st' : GameState) (hrem : 0 < st.remaining_guesses) (halpha : g.isAlpha = true)
    (hnew : g ∉ st.guessed) (hne : st.words ≠ [])
    (hinv : ∀ w ∈ st.words, mask_word w st.guessed = st.hint)
    (hstep : playStep st g rand = some st') :
    st'.remaining_guesses + countDash st'.hint <
      st.remaining_guesses + countDash st.hint := by
  simp only [playStep] at hstep
  obtain ⟨p, ws, hp, hmem, _⟩ :=
    max_partition_spec (partition st.words (st.guessed.insert g)) rand
      (partition_ne_nil _ _ hne)
  rw [hp] at hstep
  simp only [Option.some.injEq] at hstep
  rw [← hstep]
  have hwsne : ws ≠ [] := partition_buckets_nonempty _ _ (p, ws) hmem
  obtain ⟨w0, hw0⟩ := List.exists_mem_of_ne_nil ws hwsne
  have hw0words : w0 ∈ st.words := by
    have hflat : w0 ∈ ((partition st.words (st.guessed.insert g)).map Prod.snd).flatten :=
      List.mem_flatten.mpr ⟨ws, List.mem_map.mpr ⟨(p, ws), hmem, rfl⟩, hw0⟩
    exact (partition_flatten_perm st.words (st.guessed.insert g)).mem_iff.mp hflat
  have hmaskold : mask_word w0 st.guessed = st.hint := hinv w0 hw0words
  have hmasknew : mask_word w0 (st.guessed.insert g) = p :=
    partition_consistent _ _ (p, ws) hmem w0 hw0
  have hsub : ∀ c ∈ st.guessed, c ∈ st.guessed.insert g :=
    fun c hc => List.mem_insert_iff.mpr (Or.inr hc)
  have hgdash : g ≠ '-' := by
    intro hgd
    rw [hgd] at halpha
    exact absurd halpha (by decide)
  have hcountold : countDash st.hint =
      (w0.data.map (fun c => if c ∈ st.guessed then c else '-')).count '-' := by
    rw [← hmaskold]
    rfl
  have hcountnew : countDash p =
      (w0.data.map (fun c => if c ∈ st.guessed.insert g then c else '-')).count '-' := by
    rw [← hmasknew]
    rfl
  show (if g ∈ p.data then st.remaining_guesses else st.remaining_guesses - 1) + countDash p <
    st.remaining_guesses + countDash st.hint
  by_cases hghit : g ∈ p.data
  · rw [if_pos hghit]
    rw [← hmasknew, mask_word_data] at hghit
    have hstrict := countDash_mask_strict w0.data st.guessed (st.guessed.insert g) hsub g
      hnew hgdash hghit
    rw [hcountold, hcountnew]
    omega
  · rw [if_neg hghit]
    have hmono := countDash_mask_mono w0.data st.guessed (st.guessed.insert g) hsub
    rw [hcountold, hcountnew]
    omega

/-- Witness for claim C10: the accepted guess a from candidates ab and cd
at the all-placeholder hint drops the measure from seven to six. -/
theorem accepted_guess_decreases_measure_witness :
    0 < (GameState.mk ["ab", "cd"] [] 5 "--" false).remaining_guesses ∧
    ('a').isAlpha = true ∧
    'a' ∉ (GameState.mk ["ab", "cd"] [] 5 "--" false).guessed ∧
    (GameState.mk ["ab", "cd"] [] 5 "--" false).words ≠ [] ∧
    (∀ w ∈ (GameState.mk ["ab", "cd"] [] 5 "--" false).words,
      mask_word w (GameState.mk ["ab", "cd"] [] 5 "--" false).guessed =
        (GameState.mk ["ab", "cd"] [] 5 "--" false).hint) ∧
    playStep (GameState.mk ["ab", "cd"] [] 5 "--" false) 'a' 0 =
      some (GameState.mk ["ab"] ['a'] 5 "a-" false) ∧
    (GameState.mk ["ab"] ['a'] 5 "a-" false).remaining_guesses +
        countDash (GameState.mk ["ab"] ['a'] 5 "a-" false).hint <
      (GameState.mk ["ab", "cd"] [] 5 "--" false).remaining_guesses +
        countDash (GameState.mk ["ab", "cd"] [] 5 "--" false).hint :=
  ⟨by decide, by decide, by decide, by decide, by decide, by decide,
    accepted_guess_decreases_measure (GameState.mk ["ab", "cd"] [] 5 "--" false) 'a' 0
      (GameState.mk ["ab"] ['a'] 5 "a-" false) (by decide) (by decide) (by decide)
      (by decide) (by decide) (by decide)⟩

/-- The play step is determined by the game core: states agreeing on
words, guessed letters, remaining guesses and hint produce the same core
after a step, regardless of the presentation flag. -/
lemma playStep_core (st1 st2 : GameState) (h : coreOf st1 = coreOf st2) (g : Char)
    (rand : Nat) :
    Option.map coreOf (playStep st1 g rand) = Option.map coreOf (playStep st2 g rand) := by
  obtain ⟨w1, gu1, r1, h1, b1⟩ := st1
  obtain ⟨w2, gu2, r2, h2, b2⟩ := st2
  simp only [coreOf, CoreState.mk.injEq] at h
  obtain ⟨rfl, rfl, rfl, rfl⟩ := h
  simp only [playStep]
  cases max_partition rand (partition w1 (gu1.insert g)) with
  | none => rfl
  | some hint => simp [coreOf]

/-- The input-handling pass is determined by the game core. -/
lemma tryGuess_core (st1 st2 : GameState) (h : coreOf st1 = coreOf st2) (input : String)
    (rand : Nat) :
    Option.map coreOf (tryGuess st1 input rand) = Option.map coreOf (tryGuess st2 input rand) := by
  have hg : st1.guessed = st2.guessed := congrArg CoreState.guessed h
  rcases hl : (lowerStr input).data with _ | ⟨c, _ | ⟨d, t⟩⟩
  · simp only [tryGuess, hl, Option.map_some']
    rw [h]
  · simp only [tryGuess, hl]
    by_cases ha : c.isAlpha
    · simp only [if_pos ha]
      rw [hg]
      by_cases hc : c ∈ st2.guessed
      · simp only [if_pos hc, Option.map_some']
        rw [h]
      · simp only [if_neg hc]
        exact playStep_core st1 st2 h c rand
    · simp only [if_neg ha, Option.map_some']
      rw [h]
  · simp only [tryGuess, hl, Option.map_some']
    rw [h]

/-- The playing loop is determined by the game core for any sequence of
inputs and random draws. -/
lemma runGuesses_core (inputs : List (String × Nat)) :
    ∀ (st1 st2 : GameState), coreOf st1 = coreOf st2 →
      Option.map coreOf (runGuesses st1 inputs) =
        Option.map coreOf (runGuesses st2 inputs) := by
  induction inputs with
  | nil =>
    intro st1 st2 h
    simp only [runGuesses, Option.map_some']
    rw [h]
  | cons e rest ih =>
    intro st1 st2 h
    obtain ⟨input, rand⟩ := e
    have hr : st1.remaining_guesses = st2.remaining_guesses :=
      congrArg CoreState.remaining_guesses h
    have hh : st1.hint = st2.hint := congrArg CoreState.hint h
    simp only [runGuesses]
    rw [hr, hh]
    by_cases hcond : 0 < st2.remaining_guesses ∧ '-' ∈ st2.hint.data
    · simp only [if_pos hcond]
      have htg := tryGuess_core st1 st2 h input rand
      cases h1 : tryGuess st1 input rand with
      | none =>
        cases h2 : tryGuess st2 input rand with
        | none => rfl
        | some s2 => rw [h1, h2] at htg; simp at htg
      | some s1 =>
        cases h2 : tryGuess st2 input rand with
        | none => rw [h1, h2] at htg; simp at htg
        | some s2 =>
          rw [h1, h2] at htg
          simp only [Option.map_some', Option.some.injEq] at htg
          exact ih s1 s2 htg
    · simp only [if_neg hcond, Option.map_some']
      rw [h]

/-- Claim C9: a zero length request is rejected; the absolute value of
the request selects the candidate words of that length; and two runs
differing only in the sign of the length request evolve the same game
core (candidate set, guessed letters, remaining guesses, hint — hence
the same win or loss outcome) on every input sequence: the sign feeds
only the presentation flag. -/
theorem sign_selects_only_presentation (word_list : List String) (n : Int)
    (inputs : List (String × Nat)) (hn : n ≠ 0) :
    initRound word_list 0 = none ∧
    Option.map GameState.words (initRound word_list n) =
      (if ((word_list.filter (fun w => w.length = n.natAbs)).dedup).isEmpty then none
       else some ((word_list.filter (fun w => w.length = n.natAbs)).dedup)) ∧
    Option.map coreOf ((initRound word_list n).bind (fun st => runGuesses st inputs)) =
      Option.map coreOf ((initRound word_list (-n)).bind (fun st => runGuesses st inputs)) := by
  refine ⟨by simp [initRound], ?_, ?_⟩
  · simp only [initRound, if_neg hn]
    by_cases hW : ((word_list.filter (fun w => w.length = n.natAbs)).dedup).isEmpty = true
    · rw [if_pos hW, if_pos hW]
      rfl
    · rw [if_neg hW, if_neg hW]
      rfl
  · have hneg : (-n : Int) ≠ 0 := by omega
    have habs : (-n : Int).natAbs = n.natAbs := Int.natAbs_neg n
    simp only [initRound, if_neg hn, if_neg hneg, habs]
    by_cases hW : ((word_list.filter (fun w => w.length = n.natAbs)).dedup).isEmpty = true
    · rw [if_pos hW, if_pos hW]
    · rw [if_neg hW, if_neg hW]
      exact runGuesses_core inputs _ _ rfl

/-- Witness for claim C9 at the word list ab, cd, xyz, length request 2
against -2, and the single input a with draw 0. -/
theorem sign_selects_only_presentation_witness :
    (2 : Int) ≠ 0 ∧
    (initRound ["ab", "cd", "xyz"] 0 = none ∧
     Option.map GameState.words (initRound ["ab", "cd", "xyz"] 2) =
       (if ((["ab", "cd", "xyz"].filter (fun w => w.length = (2 : Int).natAbs)).dedup).isEmpty
        then none
        else some ((["ab", "cd", "xyz"].filter (fun w => w.length = (2 : Int).natAbs)).dedup)) ∧
     Option.map coreOf ((initRound ["ab", "cd", "xyz"] 2).bind
         (fun st => runGuesses st [("a", 0)])) =
       Option.map coreOf ((initRound ["ab", "cd", "xyz"] (-2)).bind
         (fun st => runGuesses st [("a", 0)]))) :=
  ⟨by decide, sign_selects_only_presentation ["ab", "cd", "xyz"] 2 [("a", 0)] (by decide)⟩
